import Mathlib

/-!
# NavigationMenuOpen: search panel state, query highlighter, result shuffler

Shallow embedding of `src/Frontend/search-engine-app/src/components/NavigationMenuOpen.js`.

* JavaScript strings are sequences of code units; they are embedded as `List Char`
  (`String` in the component state, read through `String.toList`), one `Char` per code
  unit: the embedding is exact for strings of the Basic Multilingual Plane.
* `String.prototype.toLowerCase` is embedded as a per-character map `lower : Char → Char`
  applied to every character; the map is a parameter of the highlighter. The embedding is
  exact for strings whose lower-casing keeps every character in place (it does not cover
  U+0130, whose lower-casing is two code units long).
* `Math.floor(Math.random() * (i + 1))` is an integer in `0..i`; the draw made at loop
  index `i` is embedded as `rand i : Fin (i + 1)`.
* Arrays are mutable objects: `shuffleArray` runs over a heap of arrays addressed by
  reference, so that "the input is not mutated" is a statement about the heap.
* The `while` loop of `highlightQueryWord` may not terminate; it is embedded with a fuel
  counter bounding the number of executions of the loop body.
* Each asynchronous handler is one transition of the component state, parameterised by the
  outcome of its HTTP request.
-/

namespace NavigationMenuOpen

/-! ## Result shuffler -/

/-- A heap of JavaScript arrays; a reference is an index into the heap. -/
abbrev Heap (α : Type) := List (List α)

/-- The array stored at reference `r`. -/
def Heap.read {α : Type} (h : Heap α) (r : Nat) : List α := h.getD r []

/-- Overwrite the array stored at reference `r`. -/
def Heap.write {α : Type} (h : Heap α) (r : Nat) (a : List α) : Heap α := h.set r a

/-- Allocate a fresh array object holding `a`; returns its reference and the new heap. -/
def Heap.alloc {α : Type} (h : Heap α) (a : List α) : Nat × Heap α := (h.length, h ++ [a])

/-- The destructuring swap `[a[i], a[j]] = [a[j], a[i]]`: the right-hand side is read first,
then `a[i]` and `a[j]` are assigned in that order. -/
def swapAt {α : Type} (a : List α) (i j : Nat) : List α :=
  match a.get? i, a.get? j with
  | some x, some y => (a.set i y).set j x
  | _, _ => a

/-- The loop `for (let i = n; i > 0; i--)` of `shuffleArray`, acting on the array object
`shuffled` of the heap. The first argument is the current value of `i`. -/
def shuffleFor {α : Type} (rand : (i : Nat) → Fin (i + 1)) (shuffled : Nat) :
    Nat → Heap α → Heap α
  | 0, h => h
  | i + 1, h =>
    let j := (rand (i + 1)).val
    shuffleFor rand shuffled i (h.write shuffled (swapAt (h.read shuffled) (i + 1) j))

/-- The function `shuffleArray(array)`: copy the array (`array.slice()`), run the swap loop
on the copy, return the reference of the copy (together with the final heap). -/
def shuffleArray {α : Type} (rand : (i : Nat) → Fin (i + 1)) (h : Heap α) (array : Nat) :
    Nat × Heap α :=
  let (shuffled, h1) := h.alloc (h.read array)
  (shuffled, shuffleFor rand shuffled ((h1.read shuffled).length - 1) h1)

/-- The array value returned by `shuffleArray` when it is called on a fresh array literal. -/
def shuffleArrayValue {α : Type} (rand : (i : Nat) → Fin (i + 1)) (array : List α) : List α :=
  let res := shuffleArray rand [array] 0
  res.2.read res.1

/-! ## Query highlighter -/

/-- The method `s.toLowerCase()`, with `lower` the lower-casing of one character. -/
def toLowerCase (lower : Char → Char) (s : List Char) : List Char := s.map lower

/-- The call `s.split(" ")`: cut at every single space; the result is never empty. -/
def splitSpace : List Char → List (List Char)
  | [] => [[]]
  | c :: cs =>
    if c = ' ' then [] :: splitSpace cs
    else
      match splitSpace cs with
      | [] => [[c]]
      | p :: ps => (c :: p) :: ps

/-- The call `s.startsWith(part, pos)`; a position past the end is clamped to the end. -/
def startsWith (s part : List Char) (pos : Nat) : Bool := part.isPrefixOf (s.drop pos)

/-- Search for `pat` in the suffix `s` of a string, where `s` starts at index `k`. -/
def indexOfAux (pat : List Char) : List Char → Nat → Option Nat
  | [], k => if pat.isPrefixOf [] then some k else none
  | c :: s, k => if pat.isPrefixOf (c :: s) then some k else indexOfAux pat s (k + 1)

/-- The call `s.indexOf(pat, pos)`: the least index `k ≥ pos` at which `pat` occurs,
`none` standing for `-1`; a position past the end is clamped to the end. -/
def indexOf (s pat : List Char) (pos : Nat) : Option Nat :=
  indexOfAux pat (s.drop (min pos s.length)) (min pos s.length)

/-- The call `s.slice(a, b)` for non-negative `a`, `b`. -/
def slice (s : List Char) (a b : Nat) : List Char := (s.take b).drop a

/-- The call `s.slice(a)` for non-negative `a`. -/
def sliceFrom (s : List Char) (a : Nat) : List Char := s.drop a

/-- One element of the array returned by `highlightQueryWord`: a string, a
`<strong key={key}>content</strong>` element, or `undefined` (`text[i]` past the end). -/
inductive Segment where
  | text (s : List Char)
  | strong (key : Nat) (content : List Char)
  | undefined
  deriving DecidableEq

/-- The value `text[i]` as pushed into `segments`. -/
def charAt (text : List Char) (i : Nat) : Segment :=
  match text.get? i with
  | some c => .text [c]
  | none => .undefined

/-- The local variables `currentIndex` and `segments` of `highlightQueryWord`. -/
structure Loop where
  currentIndex : Nat
  segments : List Segment
  deriving DecidableEq

/-- The body of `for (const part of queryParts)` for one part. -/
def forPart (lower : Char → Char) (text : List Char) (st : Loop) (part : List Char) : Loop :=
  if startsWith (toLowerCase lower text) part st.currentIndex then
    { currentIndex := st.currentIndex + part.length
      segments := st.segments ++
        [.strong st.currentIndex (slice text st.currentIndex (st.currentIndex + part.length))] }
  else
    { currentIndex := st.currentIndex + 1
      segments := st.segments ++ [charAt text st.currentIndex] }

/-- The loop `for (const part of queryParts)`. -/
def forParts (lower : Char → Char) (text : List Char) (queryParts : List (List Char))
    (st : Loop) : Loop :=
  queryParts.foldl (forPart lower text) st

/-- Result of one execution of the body of the `while` loop: the loop is left by `break`
with the final `segments`, or the body ran to its end. -/
inductive Pass where
  | exit (segments : List Segment)
  | next (st : Loop)
  deriving DecidableEq

/-- One execution of the body of the `while` loop. `queryParts[0]` is `queryParts.headD []`,
as `split` never returns an empty array. -/
def whileBody (lower : Char → Char) (text : List Char) (queryParts : List (List Char))
    (st : Loop) : Pass :=
  match indexOf (toLowerCase lower text) (queryParts.headD []) st.currentIndex with
  | none => .exit (st.segments ++ [.text (sliceFrom text st.currentIndex)])
  | some startIdx =>
    .next (forParts lower text queryParts
      { currentIndex := startIdx
        segments := st.segments ++ [.text (slice text st.currentIndex startIdx)] })

/-- The loop `while (currentIndex < text.length)`; `fuel` bounds the number of executions of
the body, and `none` means that the loop is still running when the fuel is spent. -/
def whileLoop (lower : Char → Char) (text : List Char) (queryParts : List (List Char)) :
    Nat → Loop → Option (List Segment)
  | 0, st => if st.currentIndex < text.length then none else some st.segments
  | fuel + 1, st =>
    if st.currentIndex < text.length then
      match whileBody lower text queryParts st with
      | .exit segments => some segments
      | .next st1 => whileLoop lower text queryParts fuel st1
    else some st.segments

/-- The query word parts `query.toLowerCase().split(" ")`. -/
def queryPartsOf (lower : Char → Char) (query : List Char) : List (List Char) :=
  splitSpace (toLowerCase lower query)

/-- The body of `highlightQueryWord` on code-unit sequences. -/
def highlight (lower : Char → Char) (query text : List Char) (fuel : Nat) :
    Option (List Segment) :=
  whileLoop lower text (queryPartsOf lower query) fuel { currentIndex := 0, segments := [] }

/-- The string carried by a segment; `undefined` carries nothing. -/
def Segment.content : Segment → List Char
  | .text s => s
  | .strong _ c => c
  | .undefined => []

/-- Concatenation, in order, of the contents of all segments. -/
def concatSegments (segments : List Segment) : List Char :=
  (segments.map Segment.content).flatten

/-- Whether the character at index `i` of the text lies inside an emphasised segment; a
`<strong key={k}>c</strong>` element covers the indices `k .. k + c.length - 1`. -/
def emphasisedAt (segments : List Segment) (i : Nat) : Bool :=
  segments.any fun seg =>
    match seg with
    | .strong key content => decide (key ≤ i ∧ i < key + content.length)
    | _ => false

/-! ## View state and remote actions -/

/-- The object held by `useState`. -/
structure State where
  query : String
  results : List String
  resultCount : Nat
  error : String
  showResultsSection : Bool
  newWord : String
  showReplaceSection : Bool
  isReplaceCompleted : Bool
  showDeleteConfirmation : Bool
  isDeleteCompleted : Bool
  hasSearched : Bool
  deriving DecidableEq

/-- The initial value passed to `useState`. -/
def initialState : State :=
  { query := ""
    results := []
    resultCount := 0
    error := ""
    showResultsSection := true
    newWord := ""
    showReplaceSection := false
    isReplaceCompleted := false
    showDeleteConfirmation := false
    isDeleteCompleted := false
    hasSearched := false }

/-- The function `highlightQueryWord(text)` of the component in state `state`. -/
def highlightQueryWord (lower : Char → Char) (state : State) (text : String) (fuel : Nat) :
    Option (List Segment) :=
  highlight lower state.query.toList text.toList fuel

/-- Outcome of an awaited HTTP request: fulfilled with the data used, or rejected. -/
inductive Outcome (α : Type) where
  | fulfilled (data : α)
  | rejected

/-- The handler `fetchSearchResults`; `response` carries `response.data.matching_sentences`. -/
def fetchSearchResults (rand : (i : Nat) → Fin (i + 1)) (state : State)
    (response : Outcome (List String)) : State :=
  match response with
  | .fulfilled matchingSentences =>
    let randomized := shuffleArrayValue rand matchingSentences
    { state with
      results := randomized
      resultCount := randomized.length
      error := ""
      hasSearched := true }
  | .rejected =>
    { state with
      error := "An error occurred while fetching results."
      results := []
      resultCount := 0
      hasSearched := true }

/-- The handler `handleReplace`. -/
def handleReplace (state : State) (response : Outcome Unit) : State :=
  match response with
  | .fulfilled _ =>
    { state with
      results := []
      error := ""
      isDeleteCompleted := false
      isReplaceCompleted := true
      showResultsSection := false
      showReplaceSection := false }
  | .rejected => { state with error := "An error occurred while replacing the word." }

/-- The handler `handleDelete`. -/
def handleDelete (state : State) : State :=
  { state with showDeleteConfirmation := true }

/-- The handler `confirmDelete`. -/
def confirmDelete (state : State) (response : Outcome Unit) : State :=
  match response with
  | .fulfilled _ =>
    { state with
      showDeleteConfirmation := false
      results := []
      error := ""
      isDeleteCompleted := true }
  | .rejected => { state with error := "An error occurred while deleting results." }

/-- The `onChange` handler of the search input. -/
def onChange (state : State) (value : String) : State := { state with query := value }

/-- The `onReplace` callback handed to `SearchResults`. -/
def onReplace (state : State) : State :=
  { state with showReplaceSection := true, showResultsSection := false }

/-- The `handleNewWordChange` callback handed to `ReplaceSection`. -/
def handleNewWordChange (state : State) (value : String) : State :=
  { state with newWord := value }

/-- The `disabled` attribute of the search input. -/
def inputDisabled (state : State) : Bool :=
  state.showDeleteConfirmation || state.isDeleteCompleted || state.isReplaceCompleted

/-- Render condition of the results section (`SearchResults`). -/
def resultsViewShown (state : State) : Bool :=
  state.showResultsSection && !state.showDeleteConfirmation && !state.isDeleteCompleted &&
    !state.isReplaceCompleted && !state.showReplaceSection

/-- Render condition of the replace section (`ReplaceSection`). -/
def replaceViewShown (state : State) : Bool := state.showReplaceSection

/-- The delete-confirmation view: the flag `showDeleteConfirmation` handed to `Confirmation`. -/
def deleteConfirmationViewShown (state : State) : Bool := state.showDeleteConfirmation

/-- The completed view: one of the flags `isReplaceCompleted`, `isDeleteCompleted`. -/
def completedViewShown (state : State) : Bool :=
  state.isReplaceCompleted || state.isDeleteCompleted

/-- Number of views, among the four, that are visible in a state. -/
def visibleViews (state : State) : Nat :=
  (resultsViewShown state).toNat + (replaceViewShown state).toNat +
    (deleteConfirmationViewShown state).toNat + (completedViewShown state).toNat

/-- A user action together with the outcome of the request it issues, if any. -/
inductive Action where
  | typeQuery (value : String)
  | search (rand : (i : Nat) → Fin (i + 1)) (response : Outcome (List String))
  | clickReplace
  | clickDelete
  | typeNewWord (value : String)
  | submitReplace (response : Outcome Unit)
  | confirmDeletion (response : Outcome Unit)

/-- Whether the rendered view of `state` offers the action. -/
def offered (state : State) : Action → Bool
  | .typeQuery _ => !inputDisabled state
  | .search _ _ => !inputDisabled state
  | .clickReplace => resultsViewShown state
  | .clickDelete => resultsViewShown state
  | .typeNewWord _ => replaceViewShown state
  | .submitReplace _ => replaceViewShown state
  | .confirmDeletion _ => deleteConfirmationViewShown state

/-- The state transition performed by an action. -/
def step (state : State) : Action → State
  | .typeQuery value => onChange state value
  | .search rand response => fetchSearchResults rand state response
  | .clickReplace => onReplace state
  | .clickDelete => handleDelete state
  | .typeNewWord value => handleNewWordChange state value
  | .submitReplace response => handleReplace state response
  | .confirmDeletion response => confirmDelete state response

/-- Run a sequence of actions; `none` when some action is not offered when it is taken. -/
def run (state : State) : List Action → Option State
  | [] => some state
  | a :: as => if offered state a then run (step state a) as else none

/-! ## Invariants used in the proofs -/

/-- The segments pushed so far concatenate to the text before the cursor. -/
def Spelled (text : List Char) (st : Loop) : Prop :=
  concatSegments st.segments = text.take st.currentIndex

/-- The five mode flags of a state, in the order `showResultsSection`, `showReplaceSection`,
`isReplaceCompleted`, `showDeleteConfirmation`, `isDeleteCompleted`. -/
def modeFlags (state : State) : Bool × Bool × Bool × Bool × Bool :=
  (state.showResultsSection, state.showReplaceSection, state.isReplaceCompleted,
    state.showDeleteConfirmation, state.isDeleteCompleted)

/-- The flag combinations met along runs from the initial state: results, replace form,
replace completed, delete confirmation, delete completed. -/
def modeInvariant (state : State) : Bool :=
  decide (modeFlags state ∈
    [(true, false, false, false, false), (false, true, false, false, false),
     (false, false, true, false, false), (true, false, false, true, false),
     (true, false, false, false, true)])

/-! ## Lemmas: shuffler -/

theorem swapAt_perm {α : Type} (a : List α) (i j : Nat) : (swapAt a i j).Perm a := by
  classical
  unfold swapAt
  split
  · rename_i x y hx hy
    rw [List.get?_eq_getElem?] at hx hy
    obtain ⟨hi, hxi⟩ := List.getElem?_eq_some_iff.mp hx
    obtain ⟨hj, hyj⟩ := List.getElem?_eq_some_iff.mp hy
    rw [List.perm_iff_count]
    intro c
    rw [List.count_set _ _ _ _ (by simpa using hj), List.count_set _ _ _ _ hi]
    rw [List.getElem_set]
    have h1 := List.count_pos_iff.mpr (List.getElem_mem hi)
    have h2 := List.count_pos_iff.mpr (List.getElem_mem hj)
    rw [hxi] at h1
    rw [hyj] at h2
    by_cases hij : i = j
    · subst hij
      have hxy : x = y := by rw [← hxi, ← hyj]
      subst hxy
      by_cases e2 : x = c <;> simp_all
    · simp only [hij, hyj, hxi]
      by_cases e1 : y = c <;> by_cases e2 : x = c <;> simp_all
  · exact List.Perm.refl _

theorem Heap.read_write_same {α : Type} (h : Heap α) (r : Nat) (a : List α)
    (hr : r < h.length) : (h.write r a).read r = a := by
  simp [Heap.read, Heap.write, List.getD, hr]

theorem Heap.read_write_other {α : Type} (h : Heap α) (r q : Nat) (a : List α)
    (hq : q ≠ r) : (h.write r a).read q = h.read q := by
  simp [Heap.read, Heap.write, List.getD, List.getElem?_set, Ne.symm hq]

theorem Heap.length_write {α : Type} (h : Heap α) (r : Nat) (a : List α) :
    (h.write r a).length = h.length := by
  simp [Heap.write]

theorem shuffleFor_spec {α : Type} (rand : (i : Nat) → Fin (i + 1)) (r : Nat) (n : Nat) :
    ∀ h : Heap α, r < h.length →
      ((shuffleFor rand r n h).read r).Perm (h.read r) ∧
      ∀ q, q ≠ r → (shuffleFor rand r n h).read q = h.read q := by
  induction n with
  | zero => intro h _; exact ⟨List.Perm.refl _, fun _ _ => rfl⟩
  | succ i ih =>
    intro h hr
    simp only [shuffleFor]
    have hlen : r < (h.write r (swapAt (h.read r) (i + 1) (rand (i + 1)).val)).length := by
      rw [Heap.length_write]; exact hr
    obtain ⟨hp, ho⟩ := ih _ hlen
    refine ⟨?_, ?_⟩
    · refine hp.trans ?_
      rw [Heap.read_write_same _ _ _ hr]
      exact swapAt_perm _ _ _
    · intro q hq
      rw [ho q hq, Heap.read_write_other _ _ _ _ hq]

theorem Heap.read_alloc_new {α : Type} (h : Heap α) (a : List α) :
    (h.alloc a).2.read (h.alloc a).1 = a := by
  simp [Heap.read, Heap.alloc, List.getD]

theorem Heap.read_alloc_old {α : Type} (h : Heap α) (a : List α) (q : Nat)
    (hq : q ≠ h.length) : (h.alloc a).2.read q = h.read q := by
  simp only [Heap.read, Heap.alloc, List.getD, List.get?_eq_getElem?]
  rcases Nat.lt_or_gt_of_ne hq with hlt | hgt
  · rw [List.getElem?_append_left hlt]
  · rw [List.getElem?_eq_none (by simp; omega), List.getElem?_eq_none (by omega)]

theorem shuffleArray_spec {α : Type} (rand : (i : Nat) → Fin (i + 1))
    (h : Heap α) (array : Nat) :
    ((shuffleArray rand h array).2.read (shuffleArray rand h array).1).Perm (h.read array) ∧
    ∀ q, q ≠ h.length → (shuffleArray rand h array).2.read q = h.read q := by
  have hnew : h.length < (h.alloc (h.read array)).2.length := by simp [Heap.alloc]
  obtain ⟨hp, ho⟩ := shuffleFor_spec rand h.length
    (((h.alloc (h.read array)).2.read h.length).length - 1) (h.alloc (h.read array)).2 hnew
  have hcopy : (h.alloc (h.read array)).2.read h.length = h.read array :=
    Heap.read_alloc_new h (h.read array)
  exact ⟨hp.trans (by rw [hcopy]),
    fun q hq => (ho q hq).trans (Heap.read_alloc_old h _ q hq)⟩

theorem shuffleArrayValue_perm {α : Type} (rand : (i : Nat) → Fin (i + 1)) (array : List α) :
    (shuffleArrayValue rand array).Perm array := by
  have h := (shuffleArray_spec rand [array] 0).1
  simpa [shuffleArrayValue, Heap.read] using h

/-! ## Lemmas: highlighter -/

/-! ### `split` -/

theorem splitSpace_ne_nil (s : List Char) : splitSpace s ≠ [] := by
  induction s with
  | nil => simp [splitSpace]
  | cons c cs ih =>
    simp only [splitSpace]
    split
    · simp
    · split <;> simp

theorem splitSpace_of_no_space (s : List Char) (h : ' ' ∉ s) : splitSpace s = [s] := by
  induction s with
  | nil => rfl
  | cons c cs ih =>
    have hc : c ≠ ' ' := fun e => h (by simp [e])
    have hcs : ' ' ∉ cs := fun e => h (by simp [e])
    simp [splitSpace, hc, ih hcs]

theorem splitSpace_exists_nonempty (s : List Char) (h : ∃ c ∈ s, c ≠ ' ') :
    ∃ p ∈ splitSpace s, p ≠ [] := by
  induction s with
  | nil => simp at h
  | cons c cs ih =>
    by_cases hc : c = ' '
    · have h2 : ∃ c ∈ cs, c ≠ ' ' := by
        obtain ⟨d, hd, hne⟩ := h
        rcases List.mem_cons.mp hd with e | e
        · exact absurd (e ▸ hc) hne
        · exact ⟨d, e, hne⟩
      obtain ⟨p, hp, hne⟩ := ih h2
      exact ⟨p, by simp [splitSpace, hc, hp], hne⟩
    · simp only [splitSpace, if_neg hc]
      split
      · exact ⟨[c], by simp, by simp⟩
      · rename_i p ps _
        exact ⟨c :: p, by simp, by simp⟩

theorem splitSpace_all_empty (s : List Char) (h : ∀ c ∈ s, c = ' ') :
    ∀ p ∈ splitSpace s, p = [] := by
  induction s with
  | nil => simp [splitSpace]
  | cons c cs ih =>
    have hc : c = ' ' := h c (by simp)
    have hcs : ∀ d ∈ cs, d = ' ' := fun d hd => h d (by simp [hd])
    intro p hp
    simp only [splitSpace, if_pos hc, List.mem_cons] at hp
    rcases hp with e | e
    · exact e
    · exact ih hcs p e

theorem length_toLowerCase (lower : Char → Char) (s : List Char) :
    (toLowerCase lower s).length = s.length := by
  simp [toLowerCase]

/-! ### `indexOf` and `startsWith` -/

theorem indexOfAux_some (pat : List Char) :
    ∀ (s : List Char) (k m : Nat), indexOfAux pat s k = some m →
      k ≤ m ∧ m ≤ k + s.length ∧ pat.isPrefixOf (s.drop (m - k)) = true := by
  intro s
  induction s with
  | nil =>
    intro k m h
    simp only [indexOfAux] at h
    split at h
    · rename_i hp
      cases h
      simpa using hp
    · cases h
  | cons c s ih =>
    intro k m h
    simp only [indexOfAux] at h
    split at h
    · rename_i hp
      cases h
      simpa using hp
    · obtain ⟨h1, h2, h3⟩ := ih (k + 1) m h
      refine ⟨by omega, by simp only [List.length_cons]; omega, ?_⟩
      have e : m - k = (m - (k + 1)) + 1 := by omega
      rw [e, List.drop_succ_cons]
      exact h3

theorem indexOfAux_first (pat : List Char) :
    ∀ (s : List Char) (k : Nat), pat.isPrefixOf s = true → indexOfAux pat s k = some k := by
  intro s k h
  cases s with
  | nil => simp [indexOfAux, h]
  | cons c s => simp [indexOfAux, h]

theorem indexOfAux_none_of_not_occurs (pat : List Char) :
    ∀ (s : List Char) (k : Nat), ¬ pat <:+: s → indexOfAux pat s k = none := by
  intro s
  induction s with
  | nil =>
    intro k h
    simp only [indexOfAux]
    split
    · rename_i hp
      exact absurd (List.isPrefixOf_iff_prefix.mp hp).isInfix h
    · rfl
  | cons c s ih =>
    intro k h
    simp only [indexOfAux]
    split
    · rename_i hp
      exact absurd (List.isPrefixOf_iff_prefix.mp hp).isInfix h
    · exact ih (k + 1) (fun hi => h (hi.trans (List.suffix_cons c s).isInfix))

theorem indexOf_some (s pat : List Char) (pos m : Nat) (hpos : pos ≤ s.length)
    (h : indexOf s pat pos = some m) :
    pos ≤ m ∧ m ≤ s.length ∧ startsWith s pat m = true := by
  unfold indexOf at h
  rw [Nat.min_eq_left hpos] at h
  obtain ⟨h1, h2, h3⟩ := indexOfAux_some pat _ _ _ h
  rw [List.length_drop] at h2
  refine ⟨h1, by omega, ?_⟩
  unfold startsWith
  rw [List.drop_drop] at h3
  have e : pos + (m - pos) = m := by omega
  rw [← e]
  exact h3

theorem indexOf_none_of_not_occurs (s pat : List Char) (pos : Nat) (h : ¬ pat <:+: s) :
    indexOf s pat pos = none := by
  unfold indexOf
  exact indexOfAux_none_of_not_occurs pat _ _
    (fun hi => h (hi.trans (List.drop_suffix _ s).isInfix))

theorem startsWith_nil (s : List Char) (pos : Nat) : startsWith s [] pos = true := by
  simp [startsWith, List.isPrefixOf]

theorem indexOf_nil (s : List Char) (pos : Nat) (hpos : pos ≤ s.length) :
    indexOf s [] pos = some pos := by
  unfold indexOf
  rw [Nat.min_eq_left hpos]
  exact indexOfAux_first [] _ _ (by simp [List.isPrefixOf])

theorem indexOf_self (s : List Char) : indexOf s s 0 = some 0 := by
  unfold indexOf
  simp only [Nat.zero_min, List.drop_zero]
  exact indexOfAux_first s s 0 (List.isPrefixOf_iff_prefix.mpr (List.prefix_refl s))

/-! ### The `for` loop over the query parts -/

theorem forPart_nil (lower : Char → Char) (text : List Char) (st : Loop) :
    (forPart lower text st []).currentIndex = st.currentIndex := by
  simp [forPart, startsWith_nil]

theorem forPart_currentIndex_le (lower : Char → Char) (text : List Char) (st : Loop)
    (part : List Char) : st.currentIndex ≤ (forPart lower text st part).currentIndex := by
  unfold forPart
  split <;> simp

theorem forPart_currentIndex_lt (lower : Char → Char) (text : List Char) (st : Loop)
    (part : List Char) (hp : part ≠ []) :
    st.currentIndex < (forPart lower text st part).currentIndex := by
  have : 0 < part.length := List.length_pos.mpr hp
  unfold forPart
  split <;> simp only [] <;> omega

theorem forParts_currentIndex_le (lower : Char → Char) (text : List Char)
    (parts : List (List Char)) :
    ∀ st : Loop, st.currentIndex ≤ (forParts lower text parts st).currentIndex := by
  induction parts with
  | nil => intro st; exact Nat.le_refl _
  | cons p ps ih =>
    intro st
    exact Nat.le_trans (forPart_currentIndex_le lower text st p) (ih _)

theorem forParts_currentIndex_lt (lower : Char → Char) (text : List Char)
    (parts : List (List Char)) (h : ∃ p ∈ parts, p ≠ []) :
    ∀ st : Loop, st.currentIndex < (forParts lower text parts st).currentIndex := by
  induction parts with
  | nil => simp at h
  | cons p ps ih =>
    intro st
    by_cases hp : p = []
    · have h2 : ∃ q ∈ ps, q ≠ [] := by
        obtain ⟨q, hq, hne⟩ := h
        rcases List.mem_cons.mp hq with e | e
        · exact absurd (e ▸ hp) hne
        · exact ⟨q, e, hne⟩
      exact Nat.lt_of_le_of_lt (forPart_currentIndex_le lower text st p) (ih h2 _)
    · exact Nat.lt_of_lt_of_le (forPart_currentIndex_lt lower text st p hp)
        (forParts_currentIndex_le lower text ps _)

theorem forParts_currentIndex_eq (lower : Char → Char) (text : List Char)
    (parts : List (List Char)) (h : ∀ p ∈ parts, p = []) :
    ∀ st : Loop, (forParts lower text parts st).currentIndex = st.currentIndex := by
  induction parts with
  | nil => intro st; rfl
  | cons p ps ih =>
    intro st
    have hp : p = [] := h p (by simp)
    subst hp
    have := ih (fun q hq => h q (by simp [hq])) (forPart lower text st [])
    simp only [forParts, List.foldl_cons] at this ⊢
    rw [this, forPart_nil]

/-! ### The segments emitted so far spell the text up to the cursor -/

theorem concatSegments_append (a b : List Segment) :
    concatSegments (a ++ b) = concatSegments a ++ concatSegments b := by
  simp [concatSegments]

theorem concatSegments_singleton (seg : Segment) : concatSegments [seg] = seg.content := by
  simp [concatSegments]

theorem take_append_slice (text : List Char) (a b : Nat) (h : a ≤ b) :
    text.take a ++ slice text a b = text.take b := by
  unfold slice
  have e : text.take a = (text.take b).take a := by
    rw [List.take_take, Nat.min_eq_left h]
  rw [e, List.take_append_drop]

theorem take_append_charAt (text : List Char) (a : Nat) :
    text.take a ++ (charAt text a).content = text.take (a + 1) := by
  rw [List.take_succ]
  unfold charAt
  rw [List.get?_eq_getElem?]
  cases text[a]? <;> rfl

theorem forPart_spelled (lower : Char → Char) (text : List Char) (st : Loop)
    (part : List Char) (h : Spelled text st) : Spelled text (forPart lower text st part) := by
  unfold Spelled at h ⊢
  unfold forPart
  split
  · simp only [concatSegments_append, concatSegments_singleton, Segment.content, h]
    exact take_append_slice text _ _ (Nat.le_add_right _ _)
  · simp only [concatSegments_append, concatSegments_singleton, h]
    exact take_append_charAt text _

theorem forParts_spelled (lower : Char → Char) (text : List Char) (parts : List (List Char)) :
    ∀ st : Loop, Spelled text st → Spelled text (forParts lower text parts st) := by
  induction parts with
  | nil => intro st h; exact h
  | cons p ps ih => intro st h; exact ih _ (forPart_spelled lower text st p h)

theorem whileBody_none (lower : Char → Char) (text : List Char) (parts : List (List Char))
    (st : Loop)
    (h : indexOf (toLowerCase lower text) (parts.headD []) st.currentIndex = none) :
    whileBody lower text parts st
      = .exit (st.segments ++ [.text (sliceFrom text st.currentIndex)]) := by
  unfold whileBody
  rw [h]

theorem whileBody_some (lower : Char → Char) (text : List Char) (parts : List (List Char))
    (st : Loop) (startIdx : Nat)
    (h : indexOf (toLowerCase lower text) (parts.headD []) st.currentIndex = some startIdx) :
    whileBody lower text parts st
      = .next (forParts lower text parts
          { currentIndex := startIdx
            segments := st.segments ++ [.text (slice text st.currentIndex startIdx)] }) := by
  unfold whileBody
  rw [h]

theorem whileLoop_of_not_lt (lower : Char → Char) (text : List Char)
    (parts : List (List Char)) (fuel : Nat) (st : Loop)
    (hlen : ¬ st.currentIndex < text.length) :
    whileLoop lower text parts fuel st = some st.segments := by
  cases fuel <;> simp [whileLoop, hlen]

theorem whileLoop_zero_of_lt (lower : Char → Char) (text : List Char)
    (parts : List (List Char)) (st : Loop) (hlen : st.currentIndex < text.length) :
    whileLoop lower text parts 0 st = none := by
  simp [whileLoop, hlen]

theorem whileLoop_succ_none (lower : Char → Char) (text : List Char)
    (parts : List (List Char)) (fuel : Nat) (st : Loop)
    (hlen : st.currentIndex < text.length)
    (h : indexOf (toLowerCase lower text) (parts.headD []) st.currentIndex = none) :
    whileLoop lower text parts (fuel + 1) st
      = some (st.segments ++ [.text (sliceFrom text st.currentIndex)]) := by
  simp [whileLoop, hlen, whileBody_none lower text parts st h]

theorem whileLoop_succ_some (lower : Char → Char) (text : List Char)
    (parts : List (List Char)) (fuel : Nat) (st : Loop) (startIdx : Nat)
    (hlen : st.currentIndex < text.length)
    (h : indexOf (toLowerCase lower text) (parts.headD []) st.currentIndex = some startIdx) :
    whileLoop lower text parts (fuel + 1) st
      = whileLoop lower text parts fuel (forParts lower text parts
          { currentIndex := startIdx
            segments := st.segments ++ [.text (slice text st.currentIndex startIdx)] }) := by
  simp [whileLoop, hlen, whileBody_some lower text parts st startIdx h]

theorem whileLoop_spelled (lower : Char → Char) (text : List Char) (parts : List (List Char)) :
    ∀ (fuel : Nat) (st : Loop) (segs : List Segment), Spelled text st →
      whileLoop lower text parts fuel st = some segs → concatSegments segs = text := by
  intro fuel
  induction fuel with
  | zero =>
    intro st segs hs h
    by_cases hlen : st.currentIndex < text.length
    · rw [whileLoop_zero_of_lt lower text parts st hlen] at h
      cases h
    · rw [whileLoop_of_not_lt lower text parts 0 st hlen] at h
      cases h
      rw [hs, List.take_of_length_le (Nat.le_of_not_lt hlen)]
  | succ fuel ih =>
    intro st segs hs h
    by_cases hlen : st.currentIndex < text.length
    · cases hidx : indexOf (toLowerCase lower text) (parts.headD []) st.currentIndex with
      | none =>
        rw [whileLoop_succ_none lower text parts fuel st hlen hidx] at h
        cases h
        simp only [concatSegments_append, concatSegments_singleton, Segment.content, sliceFrom]
        rw [hs, List.take_append_drop]
      | some startIdx =>
        rw [whileLoop_succ_some lower text parts fuel st startIdx hlen hidx] at h
        have hpos : st.currentIndex ≤ (toLowerCase lower text).length := by
          rw [length_toLowerCase]; exact Nat.le_of_lt hlen
        obtain ⟨h1, _, _⟩ := indexOf_some _ _ _ _ hpos hidx
        refine ih _ segs (forParts_spelled lower text parts _ ?_) h
        unfold Spelled
        simp only [concatSegments_append, concatSegments_singleton, Segment.content]
        rw [hs]
        exact take_append_slice text _ _ h1
    · rw [whileLoop_of_not_lt lower text parts _ st hlen] at h
      cases h
      rw [hs, List.take_of_length_le (Nat.le_of_not_lt hlen)]

/-! ### Termination of the `while` loop -/

theorem whileLoop_isSome (lower : Char → Char) (text : List Char) (parts : List (List Char))
    (h : ∃ p ∈ parts, p ≠ []) :
    ∀ (fuel : Nat) (st : Loop), text.length - st.currentIndex ≤ fuel →
      (whileLoop lower text parts fuel st).isSome = true := by
  intro fuel
  induction fuel with
  | zero =>
    intro st hf
    rw [whileLoop_of_not_lt lower text parts 0 st (by omega)]
    rfl
  | succ fuel ih =>
    intro st hf
    by_cases hlen : st.currentIndex < text.length
    · cases hidx : indexOf (toLowerCase lower text) (parts.headD []) st.currentIndex with
      | none =>
        rw [whileLoop_succ_none lower text parts fuel st hlen hidx]
        rfl
      | some startIdx =>
        rw [whileLoop_succ_some lower text parts fuel st startIdx hlen hidx]
        have hpos : st.currentIndex ≤ (toLowerCase lower text).length := by
          rw [length_toLowerCase]; exact Nat.le_of_lt hlen
        obtain ⟨h1, _, _⟩ := indexOf_some _ _ _ _ hpos hidx
        apply ih
        have h2 := forParts_currentIndex_lt lower text parts h
          { currentIndex := startIdx
            segments := st.segments ++ [.text (slice text st.currentIndex startIdx)] }
        simp only at h2
        omega
    · rw [whileLoop_of_not_lt lower text parts _ st hlen]
      rfl

theorem headD_eq_nil_of_all_nil (parts : List (List Char)) (h : ∀ p ∈ parts, p = []) :
    parts.headD [] = [] := by
  cases parts with
  | nil => rfl
  | cons p ps => exact h p (by simp)

theorem whileLoop_eq_none (lower : Char → Char) (text : List Char) (parts : List (List Char))
    (h : ∀ p ∈ parts, p = []) :
    ∀ (fuel : Nat) (st : Loop), st.currentIndex < text.length →
      whileLoop lower text parts fuel st = none := by
  intro fuel
  induction fuel with
  | zero => intro st hlen; exact whileLoop_zero_of_lt lower text parts st hlen
  | succ fuel ih =>
    intro st hlen
    have hidx : indexOf (toLowerCase lower text) (parts.headD []) st.currentIndex
        = some st.currentIndex := by
      rw [headD_eq_nil_of_all_nil parts h]
      exact indexOf_nil _ _ (by rw [length_toLowerCase]; exact Nat.le_of_lt hlen)
    rw [whileLoop_succ_some lower text parts fuel st _ hlen hidx]
    apply ih
    rw [forParts_currentIndex_eq lower text parts h]
    exact hlen

theorem whileBody_progress (lower : Char → Char) (text : List Char) (parts : List (List Char))
    (h : ∃ p ∈ parts, p ≠ []) (st : Loop) (hlen : st.currentIndex < text.length) :
    (∃ segs, whileBody lower text parts st = .exit segs) ∨
    (∃ st1, whileBody lower text parts st = .next st1 ∧
      st.currentIndex < st1.currentIndex) := by
  cases hidx : indexOf (toLowerCase lower text) (parts.headD []) st.currentIndex with
  | none => exact Or.inl ⟨_, whileBody_none lower text parts st hidx⟩
  | some startIdx =>
    right
    refine ⟨_, whileBody_some lower text parts st startIdx hidx, ?_⟩
    have hpos : st.currentIndex ≤ (toLowerCase lower text).length := by
      rw [length_toLowerCase]; exact Nat.le_of_lt hlen
    obtain ⟨h1, _, _⟩ := indexOf_some _ _ _ _ hpos hidx
    have h2 := forParts_currentIndex_lt lower text parts h
      { currentIndex := startIdx
        segments := st.segments ++ [.text (slice text st.currentIndex startIdx)] }
    simp only at h2
    omega

theorem whileBody_stuck (lower : Char → Char) (text : List Char) (parts : List (List Char))
    (h : ∀ p ∈ parts, p = []) (st : Loop) (hlen : st.currentIndex < text.length) :
    ∃ st1, whileBody lower text parts st = .next st1 ∧
      st1.currentIndex = st.currentIndex := by
  have hidx : indexOf (toLowerCase lower text) (parts.headD []) st.currentIndex
      = some st.currentIndex := by
    rw [headD_eq_nil_of_all_nil parts h]
    exact indexOf_nil _ _ (by rw [length_toLowerCase]; exact Nat.le_of_lt hlen)
  exact ⟨_, whileBody_some lower text parts st _ hidx,
    forParts_currentIndex_eq lower text parts h _⟩

/-! ### Query parts of a query -/

theorem queryPartsOf_exists_nonempty (lower : Char → Char)
    (hl : ∀ c, lower c = ' ' ↔ c = ' ') (query : List Char) (h : ∃ c ∈ query, c ≠ ' ') :
    ∃ p ∈ queryPartsOf lower query, p ≠ [] := by
  apply splitSpace_exists_nonempty
  obtain ⟨c, hc, hne⟩ := h
  exact ⟨lower c, List.mem_map.mpr ⟨c, hc, rfl⟩, fun e => hne ((hl c).mp e)⟩

theorem queryPartsOf_all_empty (lower : Char → Char)
    (hl : ∀ c, lower c = ' ' ↔ c = ' ') (query : List Char) (h : ∀ c ∈ query, c = ' ') :
    ∀ p ∈ queryPartsOf lower query, p = [] := by
  apply splitSpace_all_empty
  intro d hd
  obtain ⟨c, hc, rfl⟩ := List.mem_map.mp hd
  exact (hl c).mpr (h c hc)

theorem queryPartsOf_of_no_space (lower : Char → Char)
    (hl : ∀ c, lower c = ' ' ↔ c = ' ') (query : List Char) (h : ' ' ∉ query) :
    queryPartsOf lower query = [toLowerCase lower query] := by
  apply splitSpace_of_no_space
  intro hd
  obtain ⟨c, hc, e⟩ := List.mem_map.mp hd
  exact h ((hl c).mp e ▸ hc)

theorem highlight_single_word (lower : Char → Char) (hl : ∀ c, lower c = ' ' ↔ c = ' ')
    (w : List Char) (fuel : Nat) (hw : w ≠ []) (hsp : ' ' ∉ w) :
    highlight lower w w (fuel + 1) = some [.text [], .strong 0 w] := by
  unfold highlight
  have hlen : 0 < w.length := List.length_pos.mpr hw
  rw [queryPartsOf_of_no_space lower hl _ hsp]
  have hidx : indexOf (toLowerCase lower w) ([toLowerCase lower w].headD []) 0 = some 0 :=
    indexOf_self _
  rw [whileLoop_succ_some lower _ _ fuel { currentIndex := 0, segments := [] } 0 hlen hidx]
  have hstart : startsWith (toLowerCase lower w) (toLowerCase lower w) 0 = true := by
    simp [startsWith]
  have hfor : forParts lower w [toLowerCase lower w]
      { currentIndex := 0, segments := [] ++ [.text (slice w 0 0)] }
      = { currentIndex := w.length, segments := [.text [], .strong 0 w] } := by
    simp [forParts, forPart, hstart, length_toLowerCase, slice]
  rw [hfor, whileLoop_of_not_lt]
  simp

/-! ## Lemmas: ASCII lower-casing -/

theorem toLower_eq_space (c : Char) : Char.toLower c = ' ' ↔ c = ' ' := by
  constructor
  · intro h
    unfold Char.toLower at h
    dsimp only at h
    split at h
    · rename_i hc
      exfalso
      have h2 := congrArg Char.toNat h
      have hv : (c.toNat + 32).isValidChar := by
        left; omega
      rw [Char.ofNat, dif_pos hv] at h2
      have h3 : c.toNat + 32 = 32 := h2
      omega
    · exact h
  · rintro rfl; rfl

/-! ## Lemmas: view state -/

theorem modeInvariant_step (state : State) (a : Action) (hinv : modeInvariant state = true)
    (hoff : offered state a = true) : modeInvariant (step state a) = true := by
  obtain ⟨q, r, n, e, f1, w, f2, f3, f4, f5, hs⟩ := state
  cases a with
  | typeQuery v => exact hinv
  | search rand resp => cases resp <;> exact hinv
  | clickReplace =>
    revert hinv hoff
    cases f1 <;> cases f2 <;> cases f3 <;> cases f4 <;> cases f5 <;>
      simp [modeInvariant, modeFlags, offered, step, onReplace, handleDelete, handleReplace,
        confirmDelete, resultsViewShown, replaceViewShown, deleteConfirmationViewShown]
  | clickDelete =>
    revert hinv hoff
    cases f1 <;> cases f2 <;> cases f3 <;> cases f4 <;> cases f5 <;>
      simp [modeInvariant, modeFlags, offered, step, onReplace, handleDelete, handleReplace,
        confirmDelete, resultsViewShown, replaceViewShown, deleteConfirmationViewShown]
  | typeNewWord v => exact hinv
  | submitReplace resp =>
    cases resp
    · revert hinv hoff
      cases f1 <;> cases f2 <;> cases f3 <;> cases f4 <;> cases f5 <;>
        simp [modeInvariant, modeFlags, offered, step, onReplace, handleDelete, handleReplace,
          confirmDelete, resultsViewShown, replaceViewShown, deleteConfirmationViewShown]
    · exact hinv
  | confirmDeletion resp =>
    cases resp
    · revert hinv hoff
      cases f1 <;> cases f2 <;> cases f3 <;> cases f4 <;> cases f5 <;>
        simp [modeInvariant, modeFlags, offered, step, onReplace, handleDelete, handleReplace,
          confirmDelete, resultsViewShown, replaceViewShown, deleteConfirmationViewShown]
    · exact hinv

theorem modeInvariant_run (actions : List Action) :
    ∀ (s0 s : State), modeInvariant s0 = true → run s0 actions = some s →
      modeInvariant s = true := by
  induction actions with
  | nil =>
    intro s0 s h0 h
    simp only [run] at h
    cases h
    exact h0
  | cons a as ih =>
    intro s0 s h0 h
    simp only [run] at h
    split at h
    · rename_i hoff
      exact ih _ s (modeInvariant_step s0 a h0 hoff) h
    · cases h

theorem visibleViews_le_one_of_modeInvariant (state : State)
    (h : modeInvariant state = true) : visibleViews state ≤ 1 := by
  obtain ⟨q, r, n, e, f1, w, f2, f3, f4, f5, hs⟩ := state
  revert h
  cases f1 <;> cases f2 <;> cases f3 <;> cases f4 <;> cases f5 <;>
    simp [modeInvariant, modeFlags, visibleViews, resultsViewShown, replaceViewShown,
      deleteConfirmationViewShown, completedViewShown]

/-! ## Result shuffler: claims -/

/-- C1: for every heap, every array reference and every sequence of random index choices
(the draw at loop index `i` lies in `0..i`), the array returned by `shuffleArray` is a
permutation of the input array, of the same length, and the input array, like every array
object that existed before the call, is unchanged: the swaps act on the fresh copy only. -/
theorem shuffleArray_permutation_input_unchanged {α : Type}
    (rand : (i : Nat) → Fin (i + 1)) (h : Heap α) (array : Nat) :
    ((shuffleArray rand h array).2.read (shuffleArray rand h array).1).Perm (h.read array) ∧
    ((shuffleArray rand h array).2.read (shuffleArray rand h array).1).length
      = (h.read array).length ∧
    (shuffleArray rand h array).2.read array = h.read array ∧
    (∀ q, q < h.length → (shuffleArray rand h array).2.read q = h.read q) := by
  obtain ⟨hperm, hold⟩ := shuffleArray_spec rand h array
  refine ⟨hperm, hperm.length_eq, ?_, fun q hq => hold q (Nat.ne_of_lt hq)⟩
  by_cases harr : array = h.length
  · subst harr
    have hempty : h.read h.length = [] := by simp [Heap.read, List.getD]
    rw [hempty] at hperm ⊢
    simpa [shuffleArray, Heap.alloc] using hperm
  · exact hold array harr

/-! ## Query highlighter: claims -/

/-- C2: the function documented as highlighting the query words in the text leaves a query
word plain. With the query "a b" and the text "a b" the run ends; the part "b" occurs at
index 2, after the first occurrence (index 0) of the first part "a"; the inner loop tests
"b" only at the cursor, which stands on the space, emits one plain character instead, and
the next pass finds no further "a" and pushes the rest, "b", as plain text: index 2 lies in
no emphasised segment. -/
theorem later_query_part_left_plain :
    highlightQueryWord Char.toLower { initialState with query := "a b" } "a b" 2
      = some [.text [], .strong 0 ['a'], .text [' '], .text ['b']] ∧
    ['b'] ∈ queryPartsOf Char.toLower "a b".toList ∧
    indexOf (toLowerCase Char.toLower "a b".toList)
      ((queryPartsOf Char.toLower "a b".toList).headD []) 0 = some 0 ∧
    startsWith (toLowerCase Char.toLower "a b".toList) ['b'] 2 = true ∧
    emphasisedAt [.text [], .strong 0 ['a'], .text [' '], .text ['b']] 2 = false := by
  decide

/-- C3 (counterexample): on the empty text with the query "a", no query part occurs in the
text, and the result is the empty list of segments, not a single plain segment. -/
theorem empty_text_yields_no_segment :
    (∀ part ∈ queryPartsOf Char.toLower "a".toList,
      ¬ part <:+: toLowerCase Char.toLower "".toList) ∧
    highlightQueryWord Char.toLower { initialState with query := "a" } "" 1 = some [] ∧
    ([] : List Segment).length ≠ 1 := by
  decide

/-- C3 (amended): for every non-empty text and every query none of whose word parts occurs
(case-insensitively) in the text, `highlightQueryWord` returns exactly one segment, which is
plain and equal to the original text. -/
theorem highlightQueryWord_no_match (lower : Char → Char) (state : State) (text : String)
    (fuel : Nat) (hne : text.toList ≠ [])
    (hno : ∀ part ∈ queryPartsOf lower state.query.toList,
      ¬ part <:+: toLowerCase lower text.toList) :
    highlightQueryWord lower state text (fuel + 1) = some [.text text.toList] := by
  unfold highlightQueryWord highlight
  have hhead : (queryPartsOf lower state.query.toList).headD [] ∈
      queryPartsOf lower state.query.toList := by
    have := splitSpace_ne_nil (toLowerCase lower state.query.toList)
    unfold queryPartsOf
    cases hsplit : splitSpace (toLowerCase lower state.query.toList) with
    | nil => exact absurd hsplit this
    | cons p ps => simp
  have hidx := indexOf_none_of_not_occurs (toLowerCase lower text.toList) _ 0
    (hno _ hhead)
  rw [whileLoop_succ_none lower text.toList _ fuel { currentIndex := 0, segments := [] }
    (List.length_pos.mpr hne) hidx]
  simp [sliceFrom]

/-- C3 (witness): the text "xyz" with the query "a b". -/
theorem highlightQueryWord_no_match_witness :
    "xyz".toList ≠ [] ∧
    (∀ part ∈ queryPartsOf Char.toLower "a b".toList,
      ¬ part <:+: toLowerCase Char.toLower "xyz".toList) ∧
    highlightQueryWord Char.toLower { initialState with query := "a b" } "xyz" 1
      = some [.text "xyz".toList] :=
  ⟨by decide, by decide,
    highlightQueryWord_no_match Char.toLower { initialState with query := "a b" } "xyz" 0
      (by decide) (by decide)⟩

/-- C4 (counterexample): on the text "a" with the query "a" the result has two segments, an
empty plain segment followed by the emphasised segment. -/
theorem single_word_yields_two_segments :
    highlightQueryWord Char.toLower { initialState with query := "a" } "a" 1
      = some [.text [], .strong 0 ['a']] ∧
    [Segment.text [], Segment.strong 0 ['a']].length ≠ 1 := by
  decide

/-- C4 (amended): for every non-empty word `w` containing no space, `highlightQueryWord`
applied to the text `w` with the query `w` returns exactly two segments: an empty plain
segment (the text before the match) followed by an emphasised segment with key 0 whose
content is `w`. -/
theorem highlightQueryWord_single_word (lower : Char → Char)
    (hl : ∀ c, lower c = ' ' ↔ c = ' ') (state : State) (fuel : Nat)
    (hw : state.query.toList ≠ []) (hsp : ' ' ∉ state.query.toList) :
    highlightQueryWord lower state state.query (fuel + 1)
      = some [.text [], .strong 0 state.query.toList] :=
  highlight_single_word lower hl state.query.toList fuel hw hsp

/-- C4 (witness): the word "Cat" as text and query. -/
theorem highlightQueryWord_single_word_witness :
    (∀ c, Char.toLower c = ' ' ↔ c = ' ') ∧ "Cat".toList ≠ [] ∧ ' ' ∉ "Cat".toList ∧
    highlightQueryWord Char.toLower { initialState with query := "Cat" } "Cat" 1
      = some [.text [], .strong 0 ['C', 'a', 't']] :=
  ⟨toLower_eq_space, by decide, by decide,
    highlightQueryWord_single_word Char.toLower toLower_eq_space
      { initialState with query := "Cat" } 0 (by decide) (by decide)⟩

/-- C9: with lower-casing a per-character map that fixes the space and sends nothing else to
it, `highlightQueryWord` terminates on a text exactly when the text is empty or the query
has a non-space character. If some query part is non-empty, every execution of the loop body
either leaves the loop or strictly increases `currentIndex`, and the loop ends within
`text.length` executions of the body. If the query is empty or all spaces and the text is
non-empty, every execution of the body leaves `currentIndex` unchanged and the loop never
ends. -/
theorem highlightQueryWord_terminates_iff (lower : Char → Char)
    (hl : ∀ c, lower c = ' ' ↔ c = ' ') (state : State) (text : String) :
    ((∃ fuel, (highlightQueryWord lower state text fuel).isSome = true) ↔
      (text.toList = [] ∨ ∃ c ∈ state.query.toList, c ≠ ' ')) ∧
    ((∃ part ∈ queryPartsOf lower state.query.toList, part ≠ []) →
      (∀ st : Loop, st.currentIndex < text.toList.length →
        (∃ segs, whileBody lower text.toList (queryPartsOf lower state.query.toList) st
          = .exit segs) ∨
        (∃ st1, whileBody lower text.toList (queryPartsOf lower state.query.toList) st
          = .next st1 ∧ st.currentIndex < st1.currentIndex)) ∧
      (highlightQueryWord lower state text text.toList.length).isSome = true) ∧
    ((∀ c ∈ state.query.toList, c = ' ') → text.toList ≠ [] →
      (∀ st : Loop, st.currentIndex < text.toList.length →
        ∃ st1, whileBody lower text.toList (queryPartsOf lower state.query.toList) st
          = .next st1 ∧ st1.currentIndex = st.currentIndex) ∧
      ∀ fuel, highlightQueryWord lower state text fuel = none) := by
  have hterm : (∃ part ∈ queryPartsOf lower state.query.toList, part ≠ []) →
      (highlightQueryWord lower state text text.toList.length).isSome = true := fun hp =>
    whileLoop_isSome lower text.toList _ hp _ _ (by simp)
  have hloop : (∀ c ∈ state.query.toList, c = ' ') → text.toList ≠ [] →
      ∀ fuel, highlightQueryWord lower state text fuel = none := fun hq hne fuel =>
    whileLoop_eq_none lower text.toList _ (queryPartsOf_all_empty lower hl _ hq) fuel _
      (List.length_pos.mpr hne)
  refine ⟨⟨?_, ?_⟩, fun hp => ⟨fun st hlen => whileBody_progress lower _ _ hp st hlen,
    hterm hp⟩, fun hq hne => ⟨fun st hlen =>
      whileBody_stuck lower _ _ (queryPartsOf_all_empty lower hl _ hq) st hlen,
    hloop hq hne⟩⟩
  · rintro ⟨fuel, hfuel⟩
    by_contra hcon
    rw [not_or] at hcon
    obtain ⟨hne, hq⟩ := hcon
    have hq2 : ∀ c ∈ state.query.toList, c = ' ' := by
      intro c hc
      by_contra hcne
      exact hq ⟨c, hc, hcne⟩
    rw [hloop hq2 hne fuel] at hfuel
    cases hfuel
  · rintro (hempty | hq)
    · refine ⟨0, ?_⟩
      unfold highlightQueryWord highlight
      have hlen : ¬ (0 < text.toList.length) := by
        rw [hempty]
        exact Nat.lt_irrefl 0
      rw [whileLoop_of_not_lt lower _ _ 0 { currentIndex := 0, segments := [] } hlen]
      rfl
    · exact ⟨_, hterm (queryPartsOf_exists_nonempty lower hl _ hq)⟩

/-- C9 (witness): ASCII lower-casing, the query "a b", the text "a b". -/
theorem highlightQueryWord_terminates_iff_witness :
    (∀ c, Char.toLower c = ' ' ↔ c = ' ') ∧
    (highlightQueryWord Char.toLower { initialState with query := "a b" } "a b"
      "a b".toList.length).isSome = true :=
  ⟨toLower_eq_space,
    ((highlightQueryWord_terminates_iff Char.toLower toLower_eq_space
      { initialState with query := "a b" } "a b").2.1 ⟨['a'], by decide, by decide⟩).2⟩

/-- C10: with lower-casing a per-character (hence length-preserving) map that fixes the
space and sends nothing else to it, for every text and every query with a non-space
character `highlightQueryWord` returns within `text.length` executions of the loop body, and
the contents of the returned segments, plain and emphasised alike, `undefined` counting as
empty, concatenate in order to exactly the original text. -/
theorem highlightQueryWord_concat (lower : Char → Char)
    (hl : ∀ c, lower c = ' ' ↔ c = ' ') (state : State) (text : String)
    (hq : ∃ c ∈ state.query.toList, c ≠ ' ') :
    (∃ segs, highlightQueryWord lower state text text.toList.length = some segs ∧
      concatSegments segs = text.toList) ∧
    (∀ fuel segs, highlightQueryWord lower state text fuel = some segs →
      concatSegments segs = text.toList) := by
  have hall : ∀ fuel segs, highlightQueryWord lower state text fuel = some segs →
      concatSegments segs = text.toList := fun fuel segs h =>
    whileLoop_spelled lower text.toList _ fuel { currentIndex := 0, segments := [] } segs
      (show concatSegments [] = text.toList.take 0 from rfl) h
  refine ⟨?_, hall⟩
  have hsome : (highlightQueryWord lower state text text.toList.length).isSome = true :=
    whileLoop_isSome lower text.toList _ (queryPartsOf_exists_nonempty lower hl _ hq) _ _
      (by simp)
  obtain ⟨segs, hsegs⟩ := Option.isSome_iff_exists.mp hsome
  exact ⟨segs, hsegs, hall _ segs hsegs⟩

/-- C10 (witness): the query "b a" on the text "AB" emits "A", an emphasised "B" and one
`undefined`, which concatenate to "AB". -/
theorem highlightQueryWord_concat_witness :
    (∀ c, Char.toLower c = ' ' ↔ c = ' ') ∧
    (∃ c ∈ "b a".toList, c ≠ ' ') ∧
    highlightQueryWord Char.toLower { initialState with query := "b a" } "AB" 2
      = some [.text ['A'], .strong 1 ['B'], .undefined] ∧
    concatSegments [.text ['A'], .strong 1 ['B'], .undefined] = "AB".toList :=
  ⟨toLower_eq_space, (Exists.intro 'b' ⟨by decide, by decide⟩), by decide,
    (highlightQueryWord_concat Char.toLower toLower_eq_space
      { initialState with query := "b a" } "AB" (Exists.intro 'b' ⟨by decide, by decide⟩)).2 2 _
      (by decide)⟩

/-! ## View state and remote actions: claims -/

/-- C5 (counterexample): after `onReplace` the search input is still enabled, but a
successful search from that state leaves the results view hidden, since
`showResultsSection` is false and `showReplaceSection` is true. -/
theorem search_from_replace_form_keeps_results_hidden :
    inputDisabled (onReplace initialState) = false ∧
    resultsViewShown (fetchSearchResults (fun _ => 0) (onReplace initialState)
      (.fulfilled ["a", "b", "c"])) = false := by
  decide

/-- C5 (amended): for every state and every list `L` of sentences returned by the backend, a
successful search produces a state in which `results` is a permutation of `L`,
`resultCount` equals the length of `L`, `error` is the empty string, `hasSearched` is true,
and the results view is shown exactly when it was shown before the search (so it is shown
when the search starts from a state showing the results view). -/
theorem fetchSearchResults_success (rand : (i : Nat) → Fin (i + 1)) (state : State)
    (L : List String) :
    (fetchSearchResults rand state (.fulfilled L)).results.Perm L ∧
    (fetchSearchResults rand state (.fulfilled L)).resultCount = L.length ∧
    (fetchSearchResults rand state (.fulfilled L)).error = "" ∧
    (fetchSearchResults rand state (.fulfilled L)).hasSearched = true ∧
    resultsViewShown (fetchSearchResults rand state (.fulfilled L))
      = resultsViewShown state :=
  ⟨shuffleArrayValue_perm rand L, (shuffleArrayValue_perm rand L).length_eq, rfl, rfl, rfl⟩

/-- C6: for every state, a successful `handleReplace` gives `results` empty, `error` empty,
`showReplaceSection` false and `isReplaceCompleted` true; a successful `confirmDelete`, from
any state and in particular from the state produced by `handleDelete`, gives `results`
empty, `error` empty, `showDeleteConfirmation` false and `isDeleteCompleted` true. -/
theorem mutation_success (state : State) :
    ((handleReplace state (.fulfilled ())).results = [] ∧
      (handleReplace state (.fulfilled ())).error = "" ∧
      (handleReplace state (.fulfilled ())).showReplaceSection = false ∧
      (handleReplace state (.fulfilled ())).isReplaceCompleted = true) ∧
    ((handleDelete state).showDeleteConfirmation = true ∧
      (confirmDelete (handleDelete state) (.fulfilled ())).results = [] ∧
      (confirmDelete (handleDelete state) (.fulfilled ())).error = "" ∧
      (confirmDelete (handleDelete state) (.fulfilled ())).showDeleteConfirmation = false ∧
      (confirmDelete (handleDelete state) (.fulfilled ())).isDeleteCompleted = true) ∧
    ((confirmDelete state (.fulfilled ())).results = [] ∧
      (confirmDelete state (.fulfilled ())).error = "" ∧
      (confirmDelete state (.fulfilled ())).showDeleteConfirmation = false ∧
      (confirmDelete state (.fulfilled ())).isDeleteCompleted = true) :=
  ⟨⟨rfl, rfl, rfl, rfl⟩, ⟨rfl, rfl, rfl, rfl, rfl⟩, ⟨rfl, rfl, rfl, rfl⟩⟩

/-- C7: for every state, a failed search yields the state with `error` set to "An error
occurred while fetching results.", `results` empty, `resultCount` 0, `hasSearched` true and
every other field unchanged; a failed replace, respectively a failed delete, yields the
state with `error` set to "An error occurred while replacing the word.", respectively "An
error occurred while deleting results.", and every other field unchanged, so that the
replace form, respectively the delete confirmation, stays as it was. -/
theorem remote_failure (rand : (i : Nat) → Fin (i + 1)) (state : State) :
    fetchSearchResults rand state .rejected
      = { state with
          error := "An error occurred while fetching results."
          results := []
          resultCount := 0
          hasSearched := true } ∧
    handleReplace state .rejected
      = { state with error := "An error occurred while replacing the word." } ∧
    confirmDelete state .rejected
      = { state with error := "An error occurred while deleting results." } ∧
    replaceViewShown (handleReplace state .rejected) = replaceViewShown state ∧
    deleteConfirmationViewShown (confirmDelete state .rejected)
      = deleteConfirmationViewShown state :=
  ⟨rfl, rfl, rfl, rfl, rfl⟩

/-- C8: in every state reached from the initial state by a sequence of actions each offered
by the rendered view when it is taken (typing and search while the input is enabled,
`onReplace` and `onDelete` while the results view is shown, typing the new word and
`handleReplace` while the replace form is shown, `confirmDelete` while the delete
confirmation is shown; each handler one transition, fulfilled or rejected), at most one of
the results view, the replace view, the delete-confirmation view and the completed view is
visible. -/
theorem at_most_one_view_visible (actions : List Action) (state : State)
    (h : run initialState actions = some state) : visibleViews state ≤ 1 :=
  visibleViews_le_one_of_modeInvariant state
    (modeInvariant_run actions initialState state (by decide) h)

/-- C8 (witness): type "cat", search with one result, request the deletion, confirm it. -/
theorem at_most_one_view_visible_witness :
    run initialState [.typeQuery "cat", .search (fun _ => 0) (.fulfilled ["a cat"]),
        .clickDelete, .confirmDeletion (.fulfilled ())]
      = some { initialState with
          query := "cat", resultCount := 1, hasSearched := true,
          isDeleteCompleted := true } ∧
    visibleViews { initialState with
        query := "cat", resultCount := 1, hasSearched := true,
        isDeleteCompleted := true } ≤ 1 :=
  ⟨by decide, at_most_one_view_visible _ _ (by decide :
    run initialState [.typeQuery "cat", .search (fun _ => 0) (.fulfilled ["a cat"]),
        .clickDelete, .confirmDeletion (.fulfilled ())]
      = some { initialState with
          query := "cat", resultCount := 1, hasSearched := true,
          isDeleteCompleted := true })⟩

end NavigationMenuOpen
